import Mathlib

/-!
Shallow embedding of the TLSA synchronisation script `src/hooks/stalwart.py`.

The script is a linear fetch–normalize–diff–apply pipeline between a Stalwart
mail server (source of desired TLSA records) and Cloudflare DNS (target).
Pure string manipulation is embedded at the level of `List Char` (Python
semantics restricted to the ASCII range, which is all the development and the
concrete inputs use); the orchestrator is embedded as a function from an
abstract `World` of provider responses to an exit code plus a trace of API
calls, with the paginated listing loop given explicit fuel.
-/

namespace StalwartSync

/-- Characters treated as whitespace by Python `str.strip()` / `str.split()`,
restricted to the ASCII range. -/
def pyWs (c : Char) : Bool :=
  c = ' ' || c = '\t' || c = '\n' || c = '\r' || c = Char.ofNat 11 || c = Char.ofNat 12

/-- Embedding of Python `str.strip()` at the character-list level. -/
def stripL (l : List Char) : List Char :=
  ((l.dropWhile pyWs).reverse.dropWhile pyWs).reverse

/-- Embedding of Python `str.lower()` at the character-list level (ASCII). -/
def lowerL (l : List Char) : List Char := l.map Char.toLower

/-- Embedding of Python `str.upper()` at the character-list level (ASCII). -/
def upperL (l : List Char) : List Char := l.map Char.toUpper

/-- Embedding of Python `str.rstrip(".")` at the character-list level:
removes every trailing dot. -/
def rstripDotsL (l : List Char) : List Char :=
  (l.reverse.dropWhile (fun c => c = '.')).reverse

/-- Embedding of `str.strip()` on `String`. -/
def pyStrip (s : String) : String := ⟨stripL s.data⟩

/-- Embedding of `str.lower()` on `String` (ASCII). -/
def pyLower (s : String) : String := ⟨lowerL s.data⟩

/-- Embedding of `normalize_name` from the source:
`name.strip().lower().rstrip(".")`. -/
def normalize_name (s : String) : String :=
  ⟨rstripDotsL (lowerL (stripL s.data))⟩

/-- Worker for the embedding of Python `str.split()` (split on whitespace
runs, dropping empty tokens); `acc` holds the current token reversed. -/
def splitWsAux : List Char → List Char → List (List Char)
  | [], acc => if acc = [] then [] else [acc.reverse]
  | c :: cs, acc =>
    if pyWs c then
      if acc = [] then splitWsAux cs [] else acc.reverse :: splitWsAux cs []
    else splitWsAux cs (c :: acc)

/-- Embedding of Python `str.split()` with no arguments. -/
def splitWsL (l : List Char) : List (List Char) := splitWsAux l []

/-- Tail part of the single-space join: prepends a space before each token. -/
def joinSpTail : List (List Char) → List Char
  | [] => []
  | t :: ts => ' ' :: (t ++ joinSpTail ts)

/-- Embedding of Python `" ".join(parts)` at the character-list level. -/
def joinSpL : List (List Char) → List Char
  | [] => []
  | t :: ts => t ++ joinSpTail ts

/-- Embedding of the source's token pipeline
`[p.strip() for p in content.split() if p.strip()]`. -/
def partsL (content : List Char) : List (List Char) :=
  ((splitWsL content).map stripL).filter (fun p => p ≠ [])

/-- Embedding of Python `s.split(" ", maxsplit)`: split on each single space
from the left, at most `maxsplit` times, keeping empty fields. -/
def splitSpaceMaxL : Nat → List Char → List (List Char)
  | 0, l => [l]
  | k + 1, l =>
    if (' ' : Char) ∈ l then
      l.takeWhile (fun c => c ≠ ' ') ::
        splitSpaceMaxL k ((l.dropWhile (fun c => c ≠ ' ')).drop 1)
    else [l]

/-- Canonical record `NormTLSA` from the source: a normalized DNS name and a
four-field TLSA content string. -/
structure NormTLSA where
  name : String
  content : String
deriving DecidableEq

/-- Raw Stalwart DNS record entry (the fields the script reads). -/
structure SRec where
  rtype : String
  name : String
  content : String
deriving DecidableEq

/-- Raw Cloudflare TLSA DNS record entry (the fields the script reads). -/
structure CFRec where
  id : String
  name : String
  usage : String
  selector : String
  matching_type : String
  certificate : String
deriving DecidableEq

/-- Lexicographic comparison of character lists by Unicode code point,
matching Python's string comparison. -/
def listLE : List Char → List Char → Bool
  | [], _ => true
  | _ :: _, [] => false
  | a :: as, b :: bs =>
    if a.val.toNat < b.val.toNat then true
    else if b.val.toNat < a.val.toNat then false
    else listLE as bs

/-- String comparison by code points, as Python compares strings. -/
def strLE (a b : String) : Bool := listLE a.data b.data

theorem listLE_total (a : List Char) : ∀ b, listLE a b = true ∨ listLE b a = true := by
  induction a with
  | nil => intro b; exact Or.inl rfl
  | cons x xs ih =>
    intro b
    cases b with
    | nil => exact Or.inr rfl
    | cons y ys =>
      by_cases h1 : x.val.toNat < y.val.toNat
      · left; simp [listLE, h1]
      · by_cases h2 : y.val.toNat < x.val.toNat
        · right; simp [listLE, h2]
        · have hxy : ¬ y.val.toNat < x.val.toNat := h2
          rcases ih ys with h | h
          · left; simp [listLE, h1, h2, h]
          · right; simp [listLE, h1, h2, h]

theorem listLE_trans (a : List Char) :
    ∀ b c, listLE a b = true → listLE b c = true → listLE a c = true := by
  induction a with
  | nil => intro b c _ _; rfl
  | cons x xs ih =>
    intro b c hab hbc
    cases b with
    | nil => simp [listLE] at hab
    | cons y ys =>
      cases c with
      | nil => simp [listLE] at hbc
      | cons z zs =>
        simp only [listLE] at hab hbc ⊢
        by_cases h1 : x.val.toNat < y.val.toNat
        · by_cases h2 : y.val.toNat < z.val.toNat
          · rw [if_pos (by omega)]
          · by_cases h3 : z.val.toNat < y.val.toNat
            · rw [if_neg h2, if_pos h3] at hbc
              exact absurd hbc (by simp)
            · rw [if_pos (by omega)]
        · by_cases h2 : y.val.toNat < x.val.toNat
          · rw [if_neg h1, if_pos h2] at hab
            exact absurd hab (by simp)
          · rw [if_neg h1, if_neg h2] at hab
            by_cases h3 : y.val.toNat < z.val.toNat
            · rw [if_pos (by omega)]
            · by_cases h4 : z.val.toNat < y.val.toNat
              · rw [if_neg h3, if_pos h4] at hbc
                exact absurd hbc (by simp)
              · rw [if_neg h3, if_neg h4] at hbc
                rw [if_neg (by omega), if_neg (by omega)]
                exact ih ys zs hab hbc

theorem char_eq_of_toNat_eq {x y : Char} (h : x.val.toNat = y.val.toNat) : x = y :=
  Char.ext (UInt32.ext h)

theorem listLE_antisymm (a : List Char) :
    ∀ b, listLE a b = true → listLE b a = true → a = b := by
  induction a with
  | nil =>
    intro b _ hba
    cases b with
    | nil => rfl
    | cons y ys => simp [listLE] at hba
  | cons x xs ih =>
    intro b hab hba
    cases b with
    | nil => simp [listLE] at hab
    | cons y ys =>
      simp only [listLE] at hab hba
      by_cases h1 : x.val.toNat < y.val.toNat
      · rw [if_neg (by omega), if_pos h1] at hba
        exact absurd hba (by simp)
      · by_cases h2 : y.val.toNat < x.val.toNat
        · rw [if_neg h1, if_pos h2] at hab
          exact absurd hab (by simp)
        · rw [if_neg h1, if_neg h2] at hab
          rw [if_neg h2, if_neg h1] at hba
          have hx : x = y := char_eq_of_toNat_eq (by omega)
          rw [hx, ih ys hab hba]

theorem strLE_total (a b : String) : strLE a b = true ∨ strLE b a = true :=
  listLE_total a.data b.data

theorem strLE_trans {a b c : String} (h1 : strLE a b = true) (h2 : strLE b c = true) :
    strLE a c = true :=
  listLE_trans a.data b.data c.data h1 h2

theorem strLE_antisymm {a b : String} (h1 : strLE a b = true) (h2 : strLE b a = true) :
    a = b := by
  cases a; cases b
  exact congrArg String.mk (listLE_antisymm _ _ h1 h2)

theorem strLE_refl (a : String) : strLE a a = true := by
  rcases strLE_total a a with h | h <;> exact h

/-- Lexicographic key order `(name, content)` used by the Python
`list.sort(key=lambda x: (x.name, x.content))` calls: tuple comparison with
code-point string comparison. -/
def keyLE (a b : NormTLSA) : Prop :=
  (if a.name = b.name then strLE a.content b.content else strLE a.name b.name) = true

instance : DecidableRel keyLE := fun a b => by
  unfold keyLE; infer_instance

instance : IsTotal NormTLSA keyLE where
  total a b := by
    unfold keyLE
    by_cases h : a.name = b.name
    · rw [if_pos h, if_pos h.symm]
      exact strLE_total a.content b.content
    · rw [if_neg h, if_neg (fun hb : b.name = a.name => h hb.symm)]
      exact strLE_total a.name b.name

instance : IsTrans NormTLSA keyLE where
  trans a b c hab hbc := by
    unfold keyLE at hab hbc ⊢
    by_cases e1 : a.name = b.name
    · by_cases e2 : b.name = c.name
      · rw [if_pos e1] at hab
        rw [if_pos e2] at hbc
        rw [if_pos (e1.trans e2)]
        exact strLE_trans hab hbc
      · rw [if_neg e2] at hbc
        rw [if_neg (fun h : a.name = c.name => e2 (e1.symm.trans h))]
        rw [e1]
        exact hbc
    · by_cases e2 : b.name = c.name
      · rw [if_neg e1] at hab
        rw [if_neg (fun h : a.name = c.name => e1 (h.trans e2.symm))]
        rw [← e2]
        exact hab
      · rw [if_neg e1] at hab
        rw [if_neg e2] at hbc
        by_cases e3 : a.name = c.name
        · have hba : strLE b.name a.name = true := by rw [e3]; exact hbc
          exact absurd (strLE_antisymm hab hba) e1
        · rw [if_neg e3]
          exact strLE_trans hab hbc

/-- Lexicographic order on `(name, content)` pairs, matching Python's
comparison of string tuples in `sorted(...)`. -/
def pairLE (a b : String × String) : Prop :=
  (if a.1 = b.1 then strLE a.2 b.2 else strLE a.1 b.1) = true

instance : DecidableRel pairLE := fun a b => by
  unfold pairLE; infer_instance

instance : IsTotal (String × String) pairLE where
  total a b := by
    unfold pairLE
    by_cases h : a.1 = b.1
    · rw [if_pos h, if_pos h.symm]
      exact strLE_total a.2 b.2
    · rw [if_neg h, if_neg (fun hb : b.1 = a.1 => h hb.symm)]
      exact strLE_total a.1 b.1

instance : IsTrans (String × String) pairLE where
  trans a b c hab hbc := by
    unfold pairLE at hab hbc ⊢
    by_cases e1 : a.1 = b.1
    · by_cases e2 : b.1 = c.1
      · rw [if_pos e1] at hab
        rw [if_pos e2] at hbc
        rw [if_pos (e1.trans e2)]
        exact strLE_trans hab hbc
      · rw [if_neg e2] at hbc
        rw [if_neg (fun h : a.1 = c.1 => e2 (e1.symm.trans h))]
        rw [e1]
        exact hbc
    · by_cases e2 : b.1 = c.1
      · rw [if_neg e1] at hab
        rw [if_neg (fun h : a.1 = c.1 => e1 (h.trans e2.symm))]
        rw [← e2]
        exact hab
      · rw [if_neg e1] at hab
        rw [if_neg e2] at hbc
        by_cases e3 : a.1 = c.1
        · have hba : strLE b.1 a.1 = true := by rw [e3]; exact hbc
          exact absurd (strLE_antisymm hab hba) e1
        · rw [if_neg e3]
          exact strLE_trans hab hbc

instance : IsAntisymm (String × String) pairLE where
  antisymm a b hab hba := by
    unfold pairLE at hab hba
    by_cases e1 : a.1 = b.1
    · rw [if_pos e1] at hab
      rw [if_pos e1.symm] at hba
      exact Prod.ext e1 (strLE_antisymm hab hba)
    · rw [if_neg e1] at hab
      rw [if_neg (fun h : b.1 = a.1 => e1 h.symm)] at hba
      exact absurd (strLE_antisymm hab hba) e1

/-- Embedding of one iteration of the loop body of `normalize_tlsa_records`:
returns the canonical record the iteration appends, if any. -/
def normOne (r : SRec) : Option NormTLSA :=
  let name := rstripDotsL (lowerL (stripL r.name.data))
  let content := stripL r.content.data
  if name = [] ∨ content = [] then none
  else
    let parts := (partsL content).take 4
    if parts.length ≠ 4 then none
    else some ⟨⟨name⟩, ⟨joinSpL parts⟩⟩

/-- Embedding of `normalize_tlsa_records`: normalize each record, keep the
valid ones, and sort by the `(name, content)` key (Python's stable sort under
an antisymmetric total order is extensionally insertion sort). -/
def normalize_tlsa_records (recs : List SRec) : List NormTLSA :=
  List.insertionSort keyLE (recs.filterMap normOne)

/-- Embedding of `tlsa_set`: the set of `(name, content)` pairs. -/
def tlsa_set (records : List NormTLSA) : Finset (String × String) :=
  (records.map (fun r => (r.name, r.content))).toFinset

/-- Embedding of the record-shaping part of `stalwart_fetch_tlsa`: a non-list
`data` field yields an empty result, otherwise entries whose `type` field
upper-cases to `TLSA` are normalized. -/
def stalwart_fetch_tlsa (data : Option (List SRec)) : List NormTLSA :=
  match data with
  | none => []
  | some l => normalize_tlsa_records (l.filter (fun r => upperL r.rtype.data = "TLSA".data))

/-- One entry of the Cloudflare zone lookup `result` array; `id` is `none`
when the key is absent (Python `dict.get`). -/
structure ZoneEntry where
  id : Option String
deriving DecidableEq

/-- Parsed Cloudflare zone lookup response envelope; `result` is `none` when
the `result` field is not a list. -/
structure ZoneResp where
  success : Bool
  result : Option (List ZoneEntry)
deriving DecidableEq

/-- Embedding of the response handling of `cloudflare_get_zone_id`: fails on
an unsuccessful envelope, a missing/empty result list, or a falsy id of the
first entry; otherwise returns the first entry's id. -/
def cloudflare_get_zone_id (resp : ZoneResp) : Except String String :=
  if !resp.success then Except.error "Cloudflare zone lookup failed"
  else
    match resp.result with
    | none => Except.error "Zone not found for domain"
    | some [] => Except.error "Zone not found for domain"
    | some (z :: _) =>
      match z.id with
      | none => Except.error "Cloudflare returned zone result without id"
      | some zid =>
        if zid = "" then Except.error "Cloudflare returned zone result without id"
        else Except.ok zid

/-- Embedding of one iteration of the loop of `cloudflare_existing_tlsa`:
returns the canonical record plus its provider id, if the entry is kept. -/
def cfNormOne (r : CFRec) : Option (NormTLSA × String) :=
  let name := rstripDotsL (lowerL (stripL r.name.data))
  let rid := r.id.data
  let usage := stripL r.usage.data
  let selector := stripL r.selector.data
  let matching := stripL r.matching_type.data
  let cert := stripL r.certificate.data
  if name = [] ∨ usage = [] ∨ selector = [] ∨ matching = [] ∨ cert = [] ∨ rid = [] then
    none
  else
    let content := stripL (joinSpL [usage, selector, matching, cert])
    some (⟨⟨name⟩, ⟨content⟩⟩, ⟨rid⟩)

/-- Embedding of the normalized-list component of `cloudflare_existing_tlsa`. -/
def cloudflare_existing_tlsa_norm (raws : List CFRec) : List NormTLSA :=
  List.insertionSort keyLE (raws.filterMap (fun r => (cfNormOne r).map Prod.fst))

/-- Embedding of the `ids_by_key` side mapping of `cloudflare_existing_tlsa`:
all provider ids whose canonical record matches `key`, in traversal order. -/
def ids_by_key (raws : List CFRec) (key : String × String) : List String :=
  (raws.filterMap cfNormOne).filterMap
    (fun p => if (p.1.name, p.1.content) = key then some p.2 else none)

/-- Embedding of the Differ's `to_delete = existing_set - desired_set`. -/
def to_delete (desired existing : Finset (String × String)) : Finset (String × String) :=
  existing \ desired

/-- Embedding of the Differ's `to_add = desired_set - existing_set`. -/
def to_add (desired existing : Finset (String × String)) : Finset (String × String) :=
  desired \ existing

/-- Embedding of the content-splitting step of `cloudflare_add_tlsa`:
`rec.content.split(" ", 3)` followed by the four-part check that raises
`ValueError` on any other length. -/
def cloudflare_add_parts (rec : NormTLSA) : Except String (List (List Char)) :=
  let parts := splitSpaceMaxL 3 rec.content.data
  if parts.length ≠ 4 then Except.error "Invalid TLSA content"
  else Except.ok parts

/-- One provider API call issued by the orchestrator. -/
inductive ApiCall where
  | stalwartFetch (domain : String)
  | cfZoneLookup (domain : String)
  | cfListPage (zoneId : String) (page : Nat)
  | cfDelete (zoneId : String) (rid : String)
  | cfCreate (zoneId : String) (name : String) (content : String)
deriving DecidableEq

/-- A call is a mutation when it hits the Cloudflare delete or create
endpoints; everything else is read-side. -/
def ApiCall.isMutation : ApiCall → Bool
  | .cfDelete _ _ => true
  | .cfCreate _ _ _ => true
  | _ => false

/-- One page of the Cloudflare DNS record listing response. -/
structure CFPage where
  success : Bool
  result : List CFRec
  total_pages : Nat

/-- Abstract world of provider responses for one run: transport failures are
`Except.error`. `stalwartApiKeyInEnv` records whether the environment
variable STALWART_API_KEY is set nonempty, the only input the pre-sync
certificate-reload wrapper branches on. -/
structure World where
  stalwart : Except Unit (Option (List SRec))
  zone : Except Unit ZoneResp
  pages : Nat → Except Unit CFPage
  deleteOk : String → Bool
  createOk : String → String → Bool
  stalwartApiKeyInEnv : Bool

/-- Parsed command-line arguments of `main` (after argparse/env defaults). -/
structure Args where
  domain : String
  cf_api_key : String
  stalwart_api_key : String
  stalwart_endpoint_url : String
  dry_run : Bool
  verbose : Bool

/-- Embedding of the pagination loop of `cloudflare_list_dns_records`, with
explicit fuel; running out of fuel is modelled as a fatal transport error
(the Python loop would simply not have terminated). Returns the accumulated
record list and the trace of listing calls. -/
def cfListLoop (w : World) (zoneId : String) : Nat → Nat → List CFRec →
    Except Unit (List CFRec) × List ApiCall
  | 0, _, _ => (Except.error (), [])
  | fuel + 1, page, acc =>
    match w.pages page with
    | Except.error _ => (Except.error (), [ApiCall.cfListPage zoneId page])
    | Except.ok resp =>
      if !resp.success then (Except.error (), [ApiCall.cfListPage zoneId page])
      else
        let acc2 := acc ++ resp.result
        if resp.total_pages ≤ page then (Except.ok acc2, [ApiCall.cfListPage zoneId page])
        else
          let r := cfListLoop w zoneId fuel (page + 1) acc2
          (r.1, ApiCall.cfListPage zoneId page :: r.2)

/-- The data the apply phase of `main` needs once the plan is printed. -/
structure SyncPlan where
  zoneId : String
  raws : List CFRec
  toDelete : Finset (String × String)
  toAdd : Finset (String × String)

/-- Embedding of the read side of `main`'s try block: configuration checks,
Stalwart fetch, empty-desired early exit, zone resolution, Cloudflare
listing, and the up-to-date check. `Sum.inl` is an early exit carrying the
exit code and call trace; `Sum.inr` carries the computed plan and the trace
of read calls. -/
def readPhase (args : Args) (w : World) (fuel : Nat) :
    (Nat × List ApiCall) ⊕ (SyncPlan × List ApiCall) :=
  let domain := pyStrip args.domain
  let cf_key := pyStrip args.cf_api_key
  let st_key := pyStrip args.stalwart_api_key
  let st_url := pyStrip args.stalwart_endpoint_url
  if domain = "" ∨ cf_key = "" ∨ st_key = "" ∨ st_url = "" then Sum.inl (1, [])
  else
    match w.stalwart with
    | Except.error _ => Sum.inl (1, [ApiCall.stalwartFetch domain])
    | Except.ok data =>
      let desired := stalwart_fetch_tlsa data
      if desired = [] then Sum.inl (0, [ApiCall.stalwartFetch domain])
      else
        match w.zone with
        | Except.error _ =>
          Sum.inl (1, [ApiCall.stalwartFetch domain, ApiCall.cfZoneLookup domain])
        | Except.ok zresp =>
          match cloudflare_get_zone_id zresp with
          | Except.error _ =>
            Sum.inl (1, [ApiCall.stalwartFetch domain, ApiCall.cfZoneLookup domain])
          | Except.ok zoneId =>
            let r := cfListLoop w zoneId fuel 1 []
            let tr := ApiCall.stalwartFetch domain :: ApiCall.cfZoneLookup domain :: r.2
            match r.1 with
            | Except.error _ => Sum.inl (1, tr)
            | Except.ok raws =>
              let existing := cloudflare_existing_tlsa_norm raws
              let desired_set := tlsa_set desired
              let existing_set := tlsa_set existing
              if desired_set = existing_set then Sum.inl (0, tr)
              else
                Sum.inr (⟨zoneId, raws,
                  to_delete desired_set existing_set,
                  to_add desired_set existing_set⟩, tr)

/-- The mutation calls the apply phase of `main` plans: one delete per live
id of each stale key (keys in sorted order), then one create per missing key
(in sorted order). -/
def plannedMutations (plan : SyncPlan) : List ApiCall :=
  ((plan.toDelete.sort pairLE).map
    (fun k => (ids_by_key plan.raws k).map (fun rid => ApiCall.cfDelete plan.zoneId rid))).flatten
  ++ (plan.toAdd.sort pairLE).map (fun k => ApiCall.cfCreate plan.zoneId k.1 k.2)

/-- Whether the world lets one mutation call succeed. -/
def mutOk (w : World) : ApiCall → Bool
  | .cfDelete _ rid => w.deleteOk rid
  | .cfCreate _ name content => w.createOk name content
  | _ => true

/-- Runs planned mutation calls in order, aborting at the first failure
(the Python loops raise on a failed call and `main` catches it). Returns
whether all succeeded and the trace of calls actually issued. -/
def runMutations (w : World) : List ApiCall → Bool × List ApiCall
  | [] => (true, [])
  | c :: rest =>
    if mutOk w c then
      let r := runMutations w rest
      (r.1, c :: r.2)
    else (false, [c])

/-- Embedding of `main`'s try block: read phase, dry-run early exit, then
the apply phase; any caught exception yields exit code 1. Returns the exit
code and the full trace of provider API calls. -/
def mainSync (args : Args) (w : World) (fuel : Nat) : Nat × List ApiCall :=
  match readPhase args w fuel with
  | Sum.inl r => r
  | Sum.inr (plan, tr) =>
    if args.dry_run then (0, tr)
    else
      let r := runMutations w (plannedMutations plan)
      (if r.1 then 0 else 1, tr ++ r.2)

/-- Embedding of `reload_stalwart_certificates_from_env`. The endpoint URL
always defaults to a nonempty string, so the function branches only on
whether STALWART_API_KEY is set: the skip branch calls the name `log`, and
the main branch calls `log` as well, before the dry-run check. `log` is
defined nowhere in the module, so BOTH branches raise `NameError`; dry-run
and live mode crash identically. -/
def reload_stalwart_certificates_from_env (apiKeyInEnv : Bool) : Except String Unit :=
  if apiKeyInEnv = false then
    Except.error "NameError: name log is not defined"
  else
    Except.error "NameError: name log is not defined"

/-- Embedding of the whole process body of `main`: the certificate reload
runs first, OUTSIDE the try block. Since it raises `NameError` on every
path, the exception is unhandled and every run of the program exits 1
before any provider call; the synchronisation pipeline `mainSync` is the
behaviour of the try block the process would run if the reload returned. -/
def mainProcess (args : Args) (w : World) (fuel : Nat) : Nat × List ApiCall :=
  match reload_stalwart_certificates_from_env w.stalwartApiKeyInEnv with
  | Except.error _ => (1, [])
  | Except.ok _ => mainSync args w fuel

/-! Auxiliary lemmas about the embedded Python string operations. -/

theorem splitWsAux_tokens (l : List Char) :
    ∀ acc, (∀ c ∈ acc, pyWs c = false) →
      ∀ t ∈ splitWsAux l acc, t ≠ [] ∧ ∀ c ∈ t, pyWs c = false := by
  induction l with
  | nil =>
    intro acc hacc t ht
    by_cases h : acc = []
    · simp [splitWsAux, h] at ht
    · simp [splitWsAux, h] at ht
      subst ht
      refine ⟨by simpa using h, ?_⟩
      intro c hc
      exact hacc c (List.mem_reverse.mp hc)
  | cons c cs ih =>
    intro acc hacc t ht
    by_cases hws : pyWs c = true
    · by_cases h : acc = []
      · simp [splitWsAux, hws, h] at ht
        exact ih [] (by simp) t ht
      · simp [splitWsAux, hws, h] at ht
        rcases ht with ht | ht
        · subst ht
          refine ⟨by simpa using h, ?_⟩
          intro d hd
          exact hacc d (List.mem_reverse.mp hd)
        · exact ih [] (by simp) t ht
    · simp [splitWsAux, hws] at ht
      refine ih (c :: acc) ?_ t ht
      intro d hd
      rcases List.mem_cons.mp hd with h | h
      · subst h; simpa using hws
      · exact hacc d h

theorem splitWsL_tokens (l : List Char) :
    ∀ t ∈ splitWsL l, t ≠ [] ∧ ∀ c ∈ t, pyWs c = false :=
  splitWsAux_tokens l [] (by simp)

theorem splitWsAux_dropWhile (l : List Char) :
    splitWsAux (l.dropWhile pyWs) [] = splitWsAux l [] := by
  induction l with
  | nil => rfl
  | cons c cs ih =>
    by_cases hws : pyWs c = true
    · simpa [List.dropWhile_cons, hws, splitWsAux] using ih
    · simp [List.dropWhile_cons, hws]

theorem splitWsAux_all_ws (ws : List Char) :
    ∀ acc, (∀ c ∈ ws, pyWs c = true) →
      splitWsAux ws acc = if acc = [] then [] else [acc.reverse] := by
  induction ws with
  | nil => intro acc _; rfl
  | cons c cs ih =>
    intro acc h
    have hc : pyWs c = true := h c (List.mem_cons_self c cs)
    have hcs : ∀ d ∈ cs, pyWs d = true := fun d hd => h d (List.mem_cons_of_mem c hd)
    by_cases hacc : acc = []
    · simp [splitWsAux, hc, hacc, ih [] hcs]
    · simp [splitWsAux, hc, hacc, ih [] hcs]

theorem splitWsAux_append_ws (l : List Char) :
    ∀ acc ws, (∀ c ∈ ws, pyWs c = true) →
      splitWsAux (l ++ ws) acc = splitWsAux l acc := by
  induction l with
  | nil =>
    intro acc ws h
    simp only [List.nil_append]
    rw [splitWsAux_all_ws ws acc h]
    rfl
  | cons c cs ih =>
    intro acc ws h
    by_cases hws : pyWs c = true
    · by_cases hacc : acc = []
      · simp [splitWsAux, hws, hacc, ih [] ws h]
      · simp [splitWsAux, hws, hacc, ih [] ws h]
    · simp [splitWsAux, hws, ih (c :: acc) ws h]

theorem splitWsL_stripL (l : List Char) : splitWsL (stripL l) = splitWsL l := by
  unfold splitWsL stripL
  set f := l.dropWhile pyWs with hf
  have h0 : f.reverse.takeWhile pyWs ++ f.reverse.dropWhile pyWs = f.reverse :=
    List.takeWhile_append_dropWhile pyWs f.reverse
  have hdecomp : (f.reverse.dropWhile pyWs).reverse ++ (f.reverse.takeWhile pyWs).reverse = f := by
    rw [← List.reverse_append, h0, List.reverse_reverse]
  have hws : ∀ c ∈ (f.reverse.takeWhile pyWs).reverse, pyWs c = true := by
    intro c hc
    exact List.mem_takeWhile_imp (List.mem_reverse.mp hc)
  calc splitWsAux (f.reverse.dropWhile pyWs).reverse []
      = splitWsAux ((f.reverse.dropWhile pyWs).reverse ++ (f.reverse.takeWhile pyWs).reverse) [] :=
        (splitWsAux_append_ws _ [] _ hws).symm
    _ = splitWsAux f [] := by rw [hdecomp]
    _ = splitWsAux l [] := by rw [hf]; exact splitWsAux_dropWhile l

theorem stripL_eq_self (l : List Char) (h : ∀ c ∈ l, pyWs c = false) :
    stripL l = l := by
  have h1 : l.dropWhile pyWs = l := by
    cases l with
    | nil => rfl
    | cons c cs => simp [List.dropWhile_cons, h c (List.mem_cons_self c cs)]
  have h2 : l.reverse.dropWhile pyWs = l.reverse := by
    cases hr : l.reverse with
    | nil => rfl
    | cons c cs =>
      have : c ∈ l := by
        rw [← List.mem_reverse, hr]; exact List.mem_cons_self c cs
      simp [List.dropWhile_cons, h c this]
  unfold stripL
  rw [h1, h2, List.reverse_reverse]

theorem partsL_eq_splitWsL (l : List Char) : partsL l = splitWsL l := by
  unfold partsL
  have hmap : (splitWsL l).map stripL = splitWsL l := by
    have h : (splitWsL l).map stripL = (splitWsL l).map id :=
      List.map_congr_left (fun t ht => stripL_eq_self t (splitWsL_tokens l t ht).2)
    simpa using h
  rw [hmap]
  apply List.filter_eq_self.mpr
  intro t ht
  have := (splitWsL_tokens l t ht).1
  simpa using this

theorem stripL_empty_splitWsL (l : List Char) (h : stripL l = []) : splitWsL l = [] := by
  rw [← splitWsL_stripL, h]
  rfl

theorem joinSpL_nil : joinSpL [] = [] := rfl

theorem joinSpL_cons (t : List Char) (ts : List (List Char)) :
    joinSpL (t :: ts) = t ++ joinSpTail ts := rfl

theorem joinSpTail_nil : joinSpTail [] = [] := rfl

theorem joinSpTail_cons (t : List Char) (ts : List (List Char)) :
    joinSpTail (t :: ts) = ' ' :: joinSpL (t :: ts) := rfl

theorem splitWsAux_token_front (t : List Char) :
    ∀ l acc, (∀ c ∈ t, pyWs c = false) →
      splitWsAux (t ++ l) acc = splitWsAux l (t.reverse ++ acc) := by
  induction t with
  | nil => intro l acc _; simp
  | cons c cs ih =>
    intro l acc h
    have hc : pyWs c = false := h c (List.mem_cons_self c cs)
    have hcs : ∀ d ∈ cs, pyWs d = false := fun d hd => h d (List.mem_cons_of_mem c hd)
    have step : splitWsAux ((c :: cs) ++ l) acc = splitWsAux (cs ++ l) (c :: acc) := by
      rw [List.cons_append]
      show (if pyWs c = true then
        (if acc = [] then splitWsAux (cs ++ l) [] else acc.reverse :: splitWsAux (cs ++ l) [])
        else splitWsAux (cs ++ l) (c :: acc)) = _
      rw [if_neg (by simp [hc])]
    rw [step, ih l (c :: acc) hcs]
    simp

theorem splitWsL_joinSpL (ts : List (List Char)) :
    (∀ t ∈ ts, t ≠ [] ∧ ∀ c ∈ t, pyWs c = false) → splitWsL (joinSpL ts) = ts := by
  induction ts with
  | nil => intro _; rfl
  | cons t ts ih =>
    intro h
    have ht := h t (List.mem_cons_self t ts)
    have hts : ∀ u ∈ ts, u ≠ [] ∧ ∀ c ∈ u, pyWs c = false :=
      fun u hu => h u (List.mem_cons_of_mem t hu)
    cases ts with
    | nil =>
      unfold splitWsL
      rw [joinSpL_cons, joinSpTail_nil, List.append_nil]
      have hpre := splitWsAux_token_front t [] [] ht.2
      rw [List.append_nil, List.append_nil] at hpre
      rw [hpre]
      show (if t.reverse = [] then [] else [t.reverse.reverse]) = [t]
      rw [if_neg (by simpa using ht.1), List.reverse_reverse]
    | cons u us =>
      unfold splitWsL
      rw [joinSpL_cons, joinSpTail_cons]
      rw [splitWsAux_token_front t (' ' :: joinSpL (u :: us)) [] ht.2]
      rw [List.append_nil]
      have hsp : pyWs ' ' = true := by decide
      show (if pyWs ' ' = true then
        (if t.reverse = [] then splitWsAux (joinSpL (u :: us)) []
          else t.reverse.reverse :: splitWsAux (joinSpL (u :: us)) [])
        else splitWsAux (joinSpL (u :: us)) (' ' :: t.reverse)) = t :: u :: us
      rw [if_pos hsp, if_neg (by simpa using ht.1), List.reverse_reverse]
      have htail := ih hts
      unfold splitWsL at htail
      rw [htail]

theorem joinSpL_rev_head (ts : List (List Char)) :
    (∀ t ∈ ts, t ≠ [] ∧ ∀ c ∈ t, pyWs c = false) → ts ≠ [] →
      ∃ c r, (joinSpL ts).reverse = c :: r ∧ pyWs c = false := by
  induction ts with
  | nil => intro _ h; exact absurd rfl h
  | cons t ts ih =>
    intro h _
    have ht := h t (List.mem_cons_self t ts)
    have hts : ∀ u ∈ ts, u ≠ [] ∧ ∀ c ∈ u, pyWs c = false :=
      fun u hu => h u (List.mem_cons_of_mem t hu)
    cases ts with
    | nil =>
      rw [joinSpL_cons, joinSpTail_nil, List.append_nil]
      cases hr : t.reverse with
      | nil => exact absurd (by simpa using congrArg List.reverse hr) ht.1
      | cons c r =>
        refine ⟨c, r, rfl, ?_⟩
        have : c ∈ t := List.mem_reverse.mp (by rw [hr]; exact List.mem_cons_self c r)
        exact ht.2 c this
    | cons u us =>
      obtain ⟨c, r, hcr, hc⟩ := ih hts (by simp)
      refine ⟨c, r ++ ' ' :: t.reverse, ?_, hc⟩
      rw [joinSpL_cons, joinSpTail_cons, List.reverse_append, List.reverse_cons, hcr]
      simp

theorem joinSpL_head (ts : List (List Char)) :
    (∀ t ∈ ts, t ≠ [] ∧ ∀ c ∈ t, pyWs c = false) → ts ≠ [] →
      ∃ c r, joinSpL ts = c :: r ∧ pyWs c = false := by
  intro h hne
  cases ts with
  | nil => exact absurd rfl hne
  | cons t ts =>
    have ht := h t (List.mem_cons_self t ts)
    cases hc : t with
    | nil => exact absurd hc ht.1
    | cons c cs =>
      refine ⟨c, cs ++ joinSpTail ts, ?_, ?_⟩
      · rw [joinSpL_cons]; exact List.cons_append c cs (joinSpTail ts)
      · exact ht.2 c (by rw [hc]; exact List.mem_cons_self c cs)

theorem stripL_joinSpL (ts : List (List Char)) :
    (∀ t ∈ ts, t ≠ [] ∧ ∀ c ∈ t, pyWs c = false) → stripL (joinSpL ts) = joinSpL ts := by
  intro h
  cases hts : ts with
  | nil => rfl
  | cons t rest =>
    rw [← hts]
    obtain ⟨c, r, hcr, hc⟩ := joinSpL_head ts h (by rw [hts]; simp)
    obtain ⟨c', r', hcr', hc'⟩ := joinSpL_rev_head ts h (by rw [hts]; simp)
    unfold stripL
    have h1 : (joinSpL ts).dropWhile pyWs = joinSpL ts := by
      rw [hcr]; simp [List.dropWhile_cons, hc]
    rw [h1, hcr']
    rw [List.dropWhile_cons]
    rw [if_neg (by simp [hc'])]
    rw [← hcr', List.reverse_reverse]

theorem takeWhileNeSpace (a : List Char) :
    ∀ l, (' ' : Char) ∉ a → (a ++ ' ' :: l).takeWhile (fun c => c ≠ ' ') = a := by
  induction a with
  | nil => intro l _; simp [List.takeWhile_cons]
  | cons c cs ih =>
    intro l h
    have hc : c ≠ ' ' := fun hcc => h (by rw [hcc]; exact List.mem_cons_self _ _)
    have hcs : (' ' : Char) ∉ cs := fun hm => h (List.mem_cons_of_mem c hm)
    simp only [List.cons_append, List.takeWhile_cons]
    rw [if_pos (by simp [hc])]
    rw [ih l hcs]

theorem dropWhileNeSpace (a : List Char) :
    ∀ l, (' ' : Char) ∉ a → (a ++ ' ' :: l).dropWhile (fun c => c ≠ ' ') = ' ' :: l := by
  induction a with
  | nil => intro l _; simp [List.dropWhile_cons]
  | cons c cs ih =>
    intro l h
    have hc : c ≠ ' ' := fun hcc => h (by rw [hcc]; exact List.mem_cons_self _ _)
    have hcs : (' ' : Char) ∉ cs := fun hm => h (List.mem_cons_of_mem c hm)
    simp only [List.cons_append, List.dropWhile_cons]
    rw [if_pos (by simp [hc])]
    exact ih l hcs

theorem splitSpaceMaxL_token (k : Nat) (a l : List Char) (ha : (' ' : Char) ∉ a) :
    splitSpaceMaxL (k + 1) (a ++ ' ' :: l) = a :: splitSpaceMaxL k l := by
  unfold splitSpaceMaxL
  rw [if_pos (by simp : (' ' : Char) ∈ a ++ ' ' :: l)]
  rw [takeWhileNeSpace a l ha, dropWhileNeSpace a l ha]
  cases k <;> rfl

theorem splitSpaceMax3_joinSp4 (a b c d : List Char)
    (ha : (' ' : Char) ∉ a) (hb : (' ' : Char) ∉ b) (hc : (' ' : Char) ∉ c) :
    splitSpaceMaxL 3 (joinSpL [a, b, c, d]) = [a, b, c, d] := by
  have hjoin : joinSpL [a, b, c, d] = a ++ ' ' :: (b ++ ' ' :: (c ++ ' ' :: d)) := by
    simp [joinSpL, joinSpTail]
  rw [hjoin, splitSpaceMaxL_token 2 a _ ha, splitSpaceMaxL_token 1 b _ hb,
    splitSpaceMaxL_token 0 c _ hc]
  rfl

theorem string_mk_eq_empty_iff (l : List Char) : (⟨l⟩ : String) = "" ↔ l = [] := by
  constructor
  · intro h; exact congrArg String.data h
  · intro h; rw [h]

/-! Characterization of the per-record normalization. -/

theorem normOne_eq_some_iff (raw : SRec) (r : NormTLSA) :
    normOne raw = some r ↔
      normalize_name raw.name ≠ "" ∧ 4 ≤ (splitWsL raw.content.data).length ∧
        r = ⟨normalize_name raw.name, ⟨joinSpL ((splitWsL raw.content.data).take 4)⟩⟩ := by
  have hname : (normalize_name raw.name).data = rstripDotsL (lowerL (stripL raw.name.data)) := rfl
  have hnm_iff : normalize_name raw.name = "" ↔ rstripDotsL (lowerL (stripL raw.name.data)) = [] := by
    rw [show normalize_name raw.name = ⟨rstripDotsL (lowerL (stripL raw.name.data))⟩ from rfl]
    exact string_mk_eq_empty_iff _
  have hparts : partsL (stripL raw.content.data) = splitWsL raw.content.data := by
    rw [partsL_eq_splitWsL, splitWsL_stripL]
  unfold normOne
  by_cases h1 : rstripDotsL (lowerL (stripL raw.name.data)) = [] ∨ stripL raw.content.data = []
  · rw [if_pos h1]
    apply iff_of_false (by simp)
    intro ⟨hne, hlen, _⟩
    rcases h1 with h | h
    · exact hne (hnm_iff.mpr h)
    · have : splitWsL raw.content.data = [] := stripL_empty_splitWsL _ h
      rw [this] at hlen
      simp at hlen
  · rw [if_neg h1]
    push_neg at h1
    rw [hparts]
    by_cases h2 : ((splitWsL raw.content.data).take 4).length ≠ 4
    · rw [if_pos h2]
      apply iff_of_false (by simp)
      intro ⟨_, hlen, _⟩
      rw [List.length_take] at h2
      omega
    · rw [if_neg h2]
      push_neg at h2
      rw [List.length_take] at h2
      constructor
      · intro hsome
        refine ⟨fun hne => h1.1 (hnm_iff.mp hne), by omega, ?_⟩
        have := Option.some_injective _ hsome
        rw [← this]
        have : normalize_name raw.name = ⟨rstripDotsL (lowerL (stripL raw.name.data))⟩ := rfl
        rw [this]
      · intro ⟨_, _, hr⟩
        rw [hr]
        rfl

/-! Helper facts about `normalize_tlsa_records`. -/

theorem mem_normalize_tlsa_records (recs : List SRec) (r : NormTLSA) :
    r ∈ normalize_tlsa_records recs ↔ ∃ raw ∈ recs, normOne raw = some r := by
  unfold normalize_tlsa_records
  rw [List.mem_insertionSort, List.mem_filterMap]

theorem dropWhile_head_false {α : Type} (p : α → Bool) (l : List α) :
    ∀ c r, l.dropWhile p = c :: r → p c = false := by
  induction l with
  | nil => intro c r h; simp at h
  | cons x xs ih =>
    intro c r h
    rw [List.dropWhile_cons] at h
    by_cases hx : p x = true
    · rw [if_pos hx] at h; exact ih c r h
    · rw [if_neg hx] at h
      cases h
      simpa using hx

/-- C2: for any desired set A and existing set B of (name, content) pairs,
the Differ computes toAdd = A − B and toDelete = B − A, and
(B − toDelete) ∪ toAdd equals A exactly. -/
theorem differ_roundtrip (desired existing : List NormTLSA) :
    to_add (tlsa_set desired) (tlsa_set existing) = tlsa_set desired \ tlsa_set existing ∧
    to_delete (tlsa_set desired) (tlsa_set existing) = tlsa_set existing \ tlsa_set desired ∧
    (tlsa_set existing \ to_delete (tlsa_set desired) (tlsa_set existing)) ∪
        to_add (tlsa_set desired) (tlsa_set existing) = tlsa_set desired := by
  refine ⟨rfl, rfl, ?_⟩
  unfold to_delete to_add
  ext x
  simp only [Finset.mem_union, Finset.mem_sdiff]
  tauto

/-- C4 (amended): a CanonicalRecord is constructed from a raw record exactly
when the normalized name is nonempty and the content yields at least four
whitespace tokens; the first four tokens are kept (extras beyond four are
silently truncated) and rejoined with single spaces. -/
theorem normalize_construction_condition (recs : List SRec) (r : NormTLSA) :
    r ∈ normalize_tlsa_records recs ↔
      ∃ raw ∈ recs, normalize_name raw.name ≠ "" ∧
        4 ≤ (splitWsL raw.content.data).length ∧
        r = ⟨normalize_name raw.name, ⟨joinSpL ((splitWsL raw.content.data).take 4)⟩⟩ := by
  rw [mem_normalize_tlsa_records]
  constructor
  · rintro ⟨raw, hraw, hsome⟩
    exact ⟨raw, hraw, (normOne_eq_some_iff raw r).mp hsome⟩
  · rintro ⟨raw, hraw, hcond⟩
    exact ⟨raw, hraw, (normOne_eq_some_iff raw r).mpr hcond⟩

/-- C4 counterexample: a record whose content has five whitespace tokens is
not skipped; it produces a CanonicalRecord built from the first four tokens. -/
theorem normalize_five_tokens_not_skipped :
    (splitWsL ("1 2 3 ab cd").data).length = 5 ∧
    normalize_tlsa_records [⟨"TLSA", "x.example.com", "1 2 3 ab cd"⟩] =
      [⟨"x.example.com", "1 2 3 ab"⟩] := by
  constructor
  · decide
  · decide

/-- C6 (amended): zone resolution fails on an unsuccessful envelope, a
missing or empty result list, or a falsy id of the first entry; it returns
the id of the FIRST matching zone whenever at least one zone matches, with
no ambiguity check for multiple matches. -/
theorem cloudflare_get_zone_id_ok_iff (resp : ZoneResp) (zid : String) :
    cloudflare_get_zone_id resp = Except.ok zid ↔
      resp.success = true ∧
        ∃ z rest, resp.result = some (z :: rest) ∧ z.id = some zid ∧ zid ≠ "" := by
  rcases resp with ⟨succ, result⟩
  cases succ
  · simp [cloudflare_get_zone_id]
  · cases result with
    | none => simp [cloudflare_get_zone_id]
    | some zs =>
      cases zs with
      | nil => simp [cloudflare_get_zone_id]
      | cons z rest =>
        cases hid : z.id with
        | none => simp [cloudflare_get_zone_id, hid]
        | some zid' =>
          by_cases hzz : zid' = ""
          · have hlhs : cloudflare_get_zone_id ⟨true, some (z :: rest)⟩ =
                Except.error "Cloudflare returned zone result without id" := by
              unfold cloudflare_get_zone_id
              simp [hid, hzz]
            rw [hlhs]
            apply iff_of_false (by simp)
            rintro ⟨_, z', rest', hzr, hzid, hne⟩
            have hz' : z' = z := by
              injection hzr with h'
              injection h' with h1 _
              exact h1.symm
            rw [hz', hid] at hzid
            injection hzid with h2
            exact hne (h2.symm.trans hzz)
          · have hlhs : cloudflare_get_zone_id ⟨true, some (z :: rest)⟩ = Except.ok zid' := by
              unfold cloudflare_get_zone_id
              simp [hid, hzz]
            rw [hlhs]
            constructor
            · intro hok
              injection hok with h2
              subst h2
              exact ⟨rfl, z, rest, rfl, hid, hzz⟩
            · rintro ⟨_, z', rest', hzr, hzid, hne⟩
              have hz' : z' = z := by
                injection hzr with h'
                injection h' with h1 _
                exact h1.symm
              rw [hz', hid] at hzid
              injection hzid with h2
              rw [h2]

/-- C6 counterexample: with two matching active zones the lookup does not
fail; it silently returns the first zone's identifier. -/
theorem zone_id_two_results_no_failure :
    (ZoneResp.mk true (some [⟨some "zone-a"⟩, ⟨some "zone-b"⟩])).result.map List.length =
      some 2 ∧
    cloudflare_get_zone_id ⟨true, some [⟨some "zone-a"⟩, ⟨some "zone-b"⟩]⟩ =
      Except.ok "zone-a" := by
  exact ⟨rfl, rfl⟩

/-- C9 (amended): both normalized outputs are sorted lexicographically by
the (name, content) key, and each is a permutation of the per-record
normalization results: duplicates are NOT removed from the sequences. -/
theorem normalized_outputs_sorted (recs : List SRec) (raws : List CFRec) :
    List.Sorted keyLE (normalize_tlsa_records recs) ∧
    List.Perm (normalize_tlsa_records recs) (recs.filterMap normOne) ∧
    List.Sorted keyLE (cloudflare_existing_tlsa_norm raws) ∧
    List.Perm (cloudflare_existing_tlsa_norm raws)
      (raws.filterMap (fun r => (cfNormOne r).map Prod.fst)) :=
  ⟨List.sorted_insertionSort keyLE _, List.perm_insertionSort keyLE _,
    List.sorted_insertionSort keyLE _, List.perm_insertionSort keyLE _⟩

/-- C9 counterexample: two identical raw records stay as two identical
entries in the Normalizer output; the sequence is not deduplicated. -/
theorem normalizer_output_keeps_duplicates :
    normalize_tlsa_records [⟨"TLSA", "a", "0 0 1 ff"⟩, ⟨"TLSA", "a", "0 0 1 ff"⟩] =
      [⟨"a", "0 0 1 ff"⟩, ⟨"a", "0 0 1 ff"⟩] ∧
    ¬ List.Pairwise (fun x y : NormTLSA => (x.name, x.content) ≠ (y.name, y.content))
        (normalize_tlsa_records [⟨"TLSA", "a", "0 0 1 ff"⟩, ⟨"TLSA", "a", "0 0 1 ff"⟩]) := by
  constructor
  · decide
  · decide

/-- C10: the content of every record produced by the Normalizer splits back
into exactly four parts in the Applier's add step, so the invalid-content
error branch cannot be taken for such records. -/
theorem add_split_total (recs : List SRec) (rec : NormTLSA)
    (h : rec ∈ normalize_tlsa_records recs) :
    cloudflare_add_parts rec = Except.ok (splitSpaceMaxL 3 rec.content.data) ∧
    (splitSpaceMaxL 3 rec.content.data).length = 4 := by
  obtain ⟨raw, _, hsome⟩ := (mem_normalize_tlsa_records recs rec).mp h
  rw [normOne_eq_some_iff] at hsome
  obtain ⟨_, hlen, hrec⟩ := hsome
  have hwf : ∀ t ∈ (splitWsL raw.content.data).take 4, t ≠ [] ∧ ∀ c ∈ t, pyWs c = false :=
    fun t ht => splitWsL_tokens raw.content.data t (List.mem_of_mem_take ht)
  have h4 : ((splitWsL raw.content.data).take 4).length = 4 := by
    rw [List.length_take]; omega
  have hsplit : splitSpaceMaxL 3 (joinSpL ((splitWsL raw.content.data).take 4)) =
      (splitWsL raw.content.data).take 4 := by
    rcases htk : (splitWsL raw.content.data).take 4 with _ | ⟨a, _ | ⟨b, _ | ⟨c, _ | ⟨d, _ | _⟩⟩⟩⟩ <;>
      rw [htk] at h4 <;> simp at h4
    have hwf' := htk ▸ hwf
    have hnos : ∀ t ∈ [a, b, c, d], (' ' : Char) ∉ t := by
      intro t ht hsp
      have := (hwf' t ht).2 ' ' hsp
      simp [pyWs] at this
    exact splitSpaceMax3_joinSp4 a b c d
      (hnos a (by simp)) (hnos b (by simp)) (hnos c (by simp))
  have hcontent : rec.content.data = joinSpL ((splitWsL raw.content.data).take 4) := by
    rw [hrec]
  rw [hcontent, hsplit]
  refine ⟨?_, h4⟩
  unfold cloudflare_add_parts
  rw [hcontent, hsplit]
  rw [if_neg (by omega)]

/-- Witness for C10 at a concrete Normalizer output record. -/
theorem add_split_total_witness :
    (⟨"a", "0 0 1 ff"⟩ : NormTLSA) ∈ normalize_tlsa_records [⟨"TLSA", "a", "0 0 1 ff"⟩] ∧
    cloudflare_add_parts ⟨"a", "0 0 1 ff"⟩ =
      Except.ok (splitSpaceMaxL 3 ("0 0 1 ff").data) ∧
    (splitSpaceMaxL 3 ("0 0 1 ff").data).length = 4 :=
  ⟨by decide, add_split_total [⟨"TLSA", "a", "0 0 1 ff"⟩] ⟨"a", "0 0 1 ff"⟩ (by decide)⟩

/-- C8 (amended): name normalization trims surrounding whitespace,
lowercases, and removes ALL trailing dots: the result never ends in a dot,
and the trimmed-lowercased input is the result followed by some number of
dots. -/
theorem normalize_name_strips_all_trailing_dots (s : String) :
    (normalize_name s).data.getLast? ≠ some '.' ∧
    ∃ k, (pyLower (pyStrip s)).data = (normalize_name s).data ++ List.replicate k '.' := by
  have hdata : (normalize_name s).data = rstripDotsL (lowerL (stripL s.data)) := rfl
  have hm : (pyLower (pyStrip s)).data = lowerL (stripL s.data) := rfl
  rw [hdata, hm]
  set m := lowerL (stripL s.data) with hmdef
  constructor
  · unfold rstripDotsL
    cases hd : m.reverse.dropWhile (fun c => c = '.') with
    | nil => simp
    | cons c r =>
      rw [List.getLast?_reverse]
      have hc := dropWhile_head_false (fun c => decide (c = '.')) m.reverse c r hd
      simp only [List.head?_cons]
      intro hcontra
      have : c = '.' := Option.some_inj.mp hcontra
      rw [this] at hc
      simp at hc
  · refine ⟨(m.reverse.takeWhile (fun c => c = '.')).length, ?_⟩
    unfold rstripDotsL
    have htk : m.reverse.takeWhile (fun c => c = '.') =
        List.replicate (m.reverse.takeWhile (fun c => c = '.')).length '.' := by
      apply List.eq_replicate_of_mem
      intro b hb
      have := List.mem_takeWhile_imp hb
      simpa using this
    have hsplit : m.reverse.takeWhile (fun c => c = '.') ++
        m.reverse.dropWhile (fun c => c = '.') = m.reverse :=
      List.takeWhile_append_dropWhile _ _
    have h2 := congrArg List.reverse hsplit
    rw [List.reverse_append, List.reverse_reverse] at h2
    conv_lhs => rw [← h2]
    congr 1
    conv_lhs => rw [htk]
    rw [List.reverse_replicate]

/-- C8 counterexample: a name ending in two dots loses both, not just the
last one as the claim states. -/
theorem normalize_name_two_trailing_dots :
    normalize_name "a.example.com.." = "a.example.com" ∧
    ("a.example.com" : String) ≠ "a.example.com." := by
  constructor
  · decide
  · decide

/-- C5 (amended): the Cloudflare fetcher strips each structured data field
and joins the four fields with single spaces, WITHOUT re-splitting the
joined string or enforcing a four-token requirement on it; when every field
is nonempty and free of inner whitespace, the result agrees with Stalwart
normalization of the same joined content, yielding the same canonical
record. -/
theorem cf_norm_agrees_on_clean_fields (rid n u s m c rt : String)
    (hrid : rid ≠ "")
    (hn : normalize_name n ≠ "")
    (hu : u.data ≠ [] ∧ ∀ ch ∈ u.data, pyWs ch = false)
    (hs : s.data ≠ [] ∧ ∀ ch ∈ s.data, pyWs ch = false)
    (hm : m.data ≠ [] ∧ ∀ ch ∈ m.data, pyWs ch = false)
    (hc : c.data ≠ [] ∧ ∀ ch ∈ c.data, pyWs ch = false) :
    cfNormOne ⟨rid, n, u, s, m, c⟩ =
      some (⟨normalize_name n, ⟨joinSpL [u.data, s.data, m.data, c.data]⟩⟩, rid) ∧
    normOne ⟨rt, n, ⟨joinSpL [u.data, s.data, m.data, c.data]⟩⟩ =
      some ⟨normalize_name n, ⟨joinSpL [u.data, s.data, m.data, c.data]⟩⟩ := by
  have hwf : ∀ t ∈ [u.data, s.data, m.data, c.data],
      t ≠ [] ∧ ∀ ch ∈ t, pyWs ch = false := by
    intro t ht
    simp only [List.mem_cons, List.not_mem_nil, or_false] at ht
    rcases ht with h | h | h | h
    · exact h ▸ hu
    · exact h ▸ hs
    · exact h ▸ hm
    · exact h ▸ hc
  have hnm : rstripDotsL (lowerL (stripL n.data)) ≠ [] := by
    intro he
    exact hn ((string_mk_eq_empty_iff _).mpr he)
  have hrid' : rid.data ≠ [] := by
    intro he
    apply hrid
    cases rid
    exact congrArg String.mk he
  constructor
  · unfold cfNormOne
    rw [stripL_eq_self u.data hu.2, stripL_eq_self s.data hs.2,
      stripL_eq_self m.data hm.2, stripL_eq_self c.data hc.2]
    rw [if_neg (by
      push_neg
      exact ⟨hnm, hu.1, hs.1, hm.1, hc.1, hrid'⟩)]
    rw [stripL_joinSpL _ hwf]
    rfl
  · rw [normOne_eq_some_iff]
    refine ⟨hn, ?_, ?_⟩
    · have := splitWsL_joinSpL _ hwf
      rw [show (String.mk (joinSpL [u.data, s.data, m.data, c.data])).data =
        joinSpL [u.data, s.data, m.data, c.data] from rfl, this]
      simp
    · have := splitWsL_joinSpL _ hwf
      rw [show (String.mk (joinSpL [u.data, s.data, m.data, c.data])).data =
        joinSpL [u.data, s.data, m.data, c.data] from rfl, this]
      rfl

/-- Witness for C5 at concrete clean field values. -/
theorem cf_norm_agrees_witness :
    (("r1" : String) ≠ "" ∧ normalize_name "X.example.com." ≠ "" ∧
      ("3" : String).data ≠ [] ∧ ("1" : String).data ≠ [] ∧ ("abcd" : String).data ≠ []) ∧
    cfNormOne ⟨"r1", "X.example.com.", "3", "1", "1", "abcd"⟩ =
      some (⟨normalize_name "X.example.com.",
        ⟨joinSpL [("3" : String).data, ("1" : String).data, ("1" : String).data,
          ("abcd" : String).data]⟩⟩, "r1") ∧
    normOne ⟨"TLSA", "X.example.com.",
        ⟨joinSpL [("3" : String).data, ("1" : String).data, ("1" : String).data,
          ("abcd" : String).data]⟩⟩ =
      some ⟨normalize_name "X.example.com.",
        ⟨joinSpL [("3" : String).data, ("1" : String).data, ("1" : String).data,
          ("abcd" : String).data]⟩⟩ :=
  ⟨⟨by decide, by decide, by decide, by decide, by decide⟩,
    cf_norm_agrees_on_clean_fields "r1" "X.example.com." "3" "1" "1" "abcd" "TLSA"
      (by decide) (by decide)
      ⟨by decide, by decide⟩ ⟨by decide, by decide⟩
      ⟨by decide, by decide⟩ ⟨by decide, by decide⟩⟩

/-- C5 counterexample: a certificate field with an inner space yields a
five-token Cloudflare content kept verbatim, while Stalwart normalization of
the same joined data truncates to four tokens: the canonical records differ,
so the two normalizations are not identical. -/
theorem cf_norm_disagrees_on_inner_space :
    cloudflare_existing_tlsa_norm [⟨"r1", "x.example.com", "0", "0", "1", "ab cd"⟩] =
      [⟨"x.example.com", "0 0 1 ab cd"⟩] ∧
    normalize_tlsa_records [⟨"TLSA", "x.example.com", "0 0 1 ab cd"⟩] =
      [⟨"x.example.com", "0 0 1 ab"⟩] ∧
    (⟨"x.example.com", "0 0 1 ab cd"⟩ : NormTLSA) ≠ ⟨"x.example.com", "0 0 1 ab"⟩ :=
  ⟨by decide, by decide, by decide⟩

/-! Orchestrator lemmas: call traces and exit codes. -/

theorem cfListLoop_trace_reads (w : World) (zoneId : String) :
    ∀ fuel page acc, ∀ call ∈ (cfListLoop w zoneId fuel page acc).2,
      call.isMutation = false := by
  intro fuel
  induction fuel with
  | zero => intro page acc call hc; simp [cfListLoop] at hc
  | succ fuel ih =>
    intro page acc call hc
    unfold cfListLoop at hc
    rcases hpg : w.pages page with e | resp
    · rw [hpg] at hc
      simp at hc
      subst hc; rfl
    · rw [hpg] at hc
      dsimp only at hc
      by_cases h1 : resp.success
      · rw [if_neg (by simp [h1])] at hc
        by_cases h2 : resp.total_pages ≤ page
        · rw [if_pos h2] at hc
          simp at hc
          subst hc; rfl
        · rw [if_neg h2] at hc
          simp at hc
          rcases hc with hc | hc
          · subst hc; rfl
          · exact ih (page + 1) (acc ++ resp.result) call hc
      · rw [if_pos (by simp [h1])] at hc
        simp at hc
        subst hc; rfl

theorem readPhase_cases (args : Args) (w : World) (fuel : Nat) :
    (∃ n tr, readPhase args w fuel = Sum.inl (n, tr) ∧ (n = 0 ∨ n = 1) ∧
      ∀ call ∈ tr, call.isMutation = false) ∨
    (∃ plan tr, readPhase args w fuel = Sum.inr (plan, tr) ∧
      ∀ call ∈ tr, call.isMutation = false) := by
  unfold readPhase
  by_cases h0 : pyStrip args.domain = "" ∨ pyStrip args.cf_api_key = "" ∨
      pyStrip args.stalwart_api_key = "" ∨ pyStrip args.stalwart_endpoint_url = ""
  · rw [if_pos h0]
    exact Or.inl ⟨1, [], rfl, Or.inr rfl, by simp⟩
  · rw [if_neg h0]
    rcases hst : w.stalwart with e | data
    · refine Or.inl ⟨1, _, rfl, Or.inr rfl, ?_⟩
      intro call hc
      simp at hc
      subst hc; rfl
    · dsimp only
      by_cases hdes : stalwart_fetch_tlsa data = []
      · rw [if_pos hdes]
        refine Or.inl ⟨0, _, rfl, Or.inl rfl, ?_⟩
        intro call hc
        simp at hc
        subst hc; rfl
      · rw [if_neg hdes]
        rcases hz : w.zone with e | zresp
        · refine Or.inl ⟨1, _, rfl, Or.inr rfl, ?_⟩
          intro call hc
          simp at hc
          rcases hc with hc | hc <;> (subst hc; rfl)
        · dsimp only
          rcases hzid : cloudflare_get_zone_id zresp with e | zoneId
          · refine Or.inl ⟨1, _, rfl, Or.inr rfl, ?_⟩
            intro call hc
            simp at hc
            rcases hc with hc | hc <;> (subst hc; rfl)
          · dsimp only
            have htr : ∀ call ∈ ApiCall.stalwartFetch (pyStrip args.domain) ::
                ApiCall.cfZoneLookup (pyStrip args.domain) ::
                (cfListLoop w zoneId fuel 1 []).2, call.isMutation = false := by
              intro call hc
              rcases List.mem_cons.mp hc with hc | hc
              · subst hc; rfl
              · rcases List.mem_cons.mp hc with hc | hc
                · subst hc; rfl
                · exact cfListLoop_trace_reads w zoneId fuel 1 [] call hc
            rcases hl : (cfListLoop w zoneId fuel 1 []).1 with e | raws
            · dsimp only
              exact Or.inl ⟨1, _, rfl, Or.inr rfl, htr⟩
            · dsimp only
              by_cases heq : tlsa_set (stalwart_fetch_tlsa data) =
                  tlsa_set (cloudflare_existing_tlsa_norm raws)
              · rw [if_pos heq]
                exact Or.inl ⟨0, _, rfl, Or.inl rfl, htr⟩
              · rw [if_neg heq]
                exact Or.inr ⟨_, _, rfl, htr⟩

theorem plannedMutations_mut (plan : SyncPlan) :
    ∀ call ∈ plannedMutations plan, call.isMutation = true := by
  intro call hc
  unfold plannedMutations at hc
  rcases List.mem_append.mp hc with h | h
  · rcases List.mem_flatten.mp h with ⟨l, hl, hcl⟩
    rcases List.mem_map.mp hl with ⟨k, _, hk⟩
    rw [← hk] at hcl
    rcases List.mem_map.mp hcl with ⟨rid, _, hr⟩
    rw [← hr]
    rfl
  · rcases List.mem_map.mp h with ⟨k, _, hk⟩
    rw [← hk]
    rfl

theorem runMutations_calls_subset (w : World) :
    ∀ l, ∀ call ∈ (runMutations w l).2, call ∈ l := by
  intro l
  induction l with
  | nil => intro call hc; simp [runMutations] at hc
  | cons c rest ih =>
    intro call hc
    unfold runMutations at hc
    by_cases hok : mutOk w c = true
    · rw [if_pos hok] at hc
      dsimp only at hc
      rcases List.mem_cons.mp hc with hc | hc
      · rw [hc]; exact List.mem_cons_self c rest
      · exact List.mem_cons_of_mem c (ih call hc)
    · rw [if_neg hok] at hc
      simp at hc
      rw [hc]
      exact List.mem_cons_self c rest

theorem reload_always_fails (b : Bool) :
    reload_stalwart_certificates_from_env b =
      Except.error "NameError: name log is not defined" := by
  cases b <;> rfl

theorem mainProcess_exits_one (args : Args) (w : World) (fuel : Nat) :
    mainProcess args w fuel = (1, []) := by
  unfold mainProcess
  rw [reload_always_fails]

/-- C1 (code bug): the try-block pipeline does behave as claimed — with
valid configuration, an empty normalized desired set exits 0 right after
the Stalwart read, with no Cloudflare call at all, whatever the existing
records — but the program never reaches it: the pre-sync certificate-reload
wrapper calls the undefined name `log` on every path, outside the try
block, so every real run dies with NameError and exit code 1 before any
provider call. -/
theorem empty_desired_no_mutation (args : Args) (w : World) (fuel : Nat)
    (data : Option (List SRec))
    (hdom : pyStrip args.domain ≠ "") (hcf : pyStrip args.cf_api_key ≠ "")
    (hst : pyStrip args.stalwart_api_key ≠ "")
    (hurl : pyStrip args.stalwart_endpoint_url ≠ "")
    (hresp : w.stalwart = Except.ok data)
    (hdes : stalwart_fetch_tlsa data = []) :
    mainSync args w fuel = (0, [ApiCall.stalwartFetch (pyStrip args.domain)]) ∧
    (∀ call ∈ (mainSync args w fuel).2, call.isMutation = false) ∧
    mainProcess args w fuel = (1, []) := by
  have hrp : readPhase args w fuel =
      Sum.inl (0, [ApiCall.stalwartFetch (pyStrip args.domain)]) := by
    unfold readPhase
    rw [if_neg (by push_neg; exact ⟨hdom, hcf, hst, hurl⟩)]
    rw [hresp]
    dsimp only
    rw [if_pos hdes]
  have hms : mainSync args w fuel = (0, [ApiCall.stalwartFetch (pyStrip args.domain)]) := by
    unfold mainSync
    rw [hrp]
  rw [hms]
  refine ⟨rfl, ?_, mainProcess_exits_one args w fuel⟩
  intro call hc
  simp at hc
  subst hc; rfl

/-- Witness for C1 at a concrete valid configuration whose Stalwart data is
an empty record list. -/
theorem empty_desired_no_mutation_witness :
    (pyStrip "example.com" ≠ "" ∧ pyStrip "cfkey" ≠ "" ∧ pyStrip "stkey" ≠ "" ∧
      pyStrip "http://stalwart:8080" ≠ "" ∧
      stalwart_fetch_tlsa (some []) = ([] : List NormTLSA)) ∧
    mainSync ⟨"example.com", "cfkey", "stkey", "http://stalwart:8080", false, false⟩
        ⟨Except.ok (some []), Except.error (), fun _ => Except.error (),
          fun _ => true, fun _ _ => true, true⟩ 0 =
      (0, [ApiCall.stalwartFetch (pyStrip "example.com")]) ∧
    (∀ call ∈ (mainSync ⟨"example.com", "cfkey", "stkey", "http://stalwart:8080", false, false⟩
        ⟨Except.ok (some []), Except.error (), fun _ => Except.error (),
          fun _ => true, fun _ _ => true, true⟩ 0).2, call.isMutation = false) ∧
    mainProcess ⟨"example.com", "cfkey", "stkey", "http://stalwart:8080", false, false⟩
        ⟨Except.ok (some []), Except.error (), fun _ => Except.error (),
          fun _ => true, fun _ _ => true, true⟩ 0 = (1, []) :=
  ⟨⟨by decide, by decide, by decide, by decide, by decide⟩,
    empty_desired_no_mutation
      ⟨"example.com", "cfkey", "stkey", "http://stalwart:8080", false, false⟩
      ⟨Except.ok (some []), Except.error (), fun _ => Except.error (),
        fun _ => true, fun _ _ => true, true⟩ 0 (some [])
      (by decide) (by decide) (by decide) (by decide) rfl (by decide)⟩

/-- C3 (code bug): the try-block pipeline exits 0 or 1 on every path and
attains 0 (e.g. the empty-desired no-op), but the full process never
completes successfully: the pre-sync reload raises an unhandled NameError
(undefined name `log`) in every environment, so every real run exits 1
with no provider call — no input environment yields exit code 0. -/
theorem exit_codes_zero_or_one :
    (∀ (args : Args) (w : World) (fuel : Nat), mainProcess args w fuel = (1, [])) ∧
    (∀ (args : Args) (w : World) (fuel : Nat),
      (mainSync args w fuel).1 = 0 ∨ (mainSync args w fuel).1 = 1) ∧
    (∃ (args : Args) (w : World) (fuel : Nat), (mainSync args w fuel).1 = 0) := by
  refine ⟨mainProcess_exits_one, ?_, ?_⟩
  · intro args w fuel
    unfold mainSync
    rcases readPhase_cases args w fuel with ⟨n, tr, heq, hn, _⟩ | ⟨plan, tr, heq, _⟩
    · rw [heq]
      exact hn
    · rw [heq]
      dsimp only
      by_cases hd : args.dry_run = true
      · rw [if_pos hd]
        exact Or.inl rfl
      · rw [if_neg hd]
        by_cases hb : (runMutations w (plannedMutations plan)).1 = true
        · rw [if_pos hb]
          exact Or.inl rfl
        · rw [if_neg hb]
          exact Or.inr rfl
  · exact ⟨⟨"d", "c", "s", "u", false, false⟩,
      ⟨Except.ok none, Except.error (), fun _ => Except.error (),
        fun _ => true, fun _ _ => true, true⟩, 0, by decide⟩

/-- C7: over the synchronisation pipeline, a dry run issues no mutation call
and issues exactly the read-side calls of the corresponding live run on the
same provider responses, in the same order. -/
theorem dry_run_reads_only (args : Args) (w : World) (fuel : Nat) :
    (∀ call ∈ (mainSync { args with dry_run := true } w fuel).2,
      call.isMutation = false) ∧
    (mainSync { args with dry_run := true } w fuel).2 =
      (mainSync { args with dry_run := false } w fuel).2.filter
        (fun call => !call.isMutation) := by
  have hrd : readPhase { args with dry_run := true } w fuel = readPhase args w fuel := rfl
  have hrl : readPhase { args with dry_run := false } w fuel = readPhase args w fuel := rfl
  unfold mainSync
  rw [hrd, hrl]
  rcases readPhase_cases args w fuel with ⟨n, tr, heq, _, htr⟩ | ⟨plan, tr, heq, htr⟩
  · rw [heq]
    dsimp only
    refine ⟨htr, ?_⟩
    symm
    apply List.filter_eq_self.mpr
    intro call hc
    simp [htr call hc]
  · rw [heq]
    dsimp only
    rw [if_pos rfl, if_neg (by simp)]
    refine ⟨htr, ?_⟩
    rw [List.filter_append]
    have h1 : tr.filter (fun call => !call.isMutation) = tr := by
      apply List.filter_eq_self.mpr
      intro call hc
      simp [htr call hc]
    have h2 : (runMutations w (plannedMutations plan)).2.filter
        (fun call => !call.isMutation) = [] := by
      apply List.filter_eq_nil_iff.mpr
      intro call hc
      have hmem := runMutations_calls_subset w (plannedMutations plan) call hc
      simp [plannedMutations_mut plan call hmem]
    rw [h1, h2, List.append_nil]

end StalwartSync
